import Mathlib

/-!
Shallow embedding of `src/calendar-processor.py` (the OpenCritic calendar
processor).  Python strings are modelled as `List Char`.  Modelled
explicitly below: `str.split('\n')`, `str.strip()`, `'\n'.join`,
the `re.search` call for the `DTSTART` pattern,
`datetime.strptime(-, '%Y%m%d')` and `datetime` comparison.
A Python `ValueError` escaping `strptime` is modelled with `Except`.
-/

namespace CalProc

/-- The line separator used by `split('\n')` and `'\n'.join`. -/
def NL : Char := '\n'

/-- The ASCII whitespace characters removed by Python `str.strip()`. -/
def isPySpace (c : Char) : Bool :=
  c == ' ' || c == '\t' || c == '\n' || c == '\r' || c == '\x0b' || c == '\x0c'

/-- Remove leading Python whitespace (the left half of `str.strip()`). -/
def leftStrip (s : List Char) : List Char := s.dropWhile isPySpace

/-- Remove trailing Python whitespace (the right half of `str.strip()`). -/
def rightStrip (s : List Char) : List Char := (s.reverse.dropWhile isPySpace).reverse

/-- Python `str.strip()` with no arguments: remove whitespace at both ends. -/
def pyStrip (s : List Char) : List Char := rightStrip (leftStrip s)

/-- Python `str.split('\n')`: split into lines at every newline character.
`splitNL [] = [[]]` just as `''.split('\n') == ['']`. -/
def splitNL : List Char → List (List Char)
  | [] => [[]]
  | c :: cs =>
    if c = NL then [] :: splitNL cs
    else
      match splitNL cs with
      | [] => [[c]]
      | r :: rs => (c :: r) :: rs

/-- Python `'\n'.join(ls)`. -/
def joinNL : List (List Char) → List Char
  | [] => []
  | [l] => l
  | l :: l' :: ls => l ++ NL :: joinNL (l' :: ls)

/-- The record begin marker `'BEGIN:VEVENT'`. -/
def beginMarker : List Char := "BEGIN:VEVENT".data

/-- The record end marker `'END:VEVENT'`. -/
def endMarker : List Char := "END:VEVENT".data

/-- `line.strip() == 'BEGIN:VEVENT'`. -/
def isBegin (l : List Char) : Bool := pyStrip l == beginMarker

/-- `line.strip() == 'END:VEVENT'`. -/
def isEnd (l : List Char) : Bool := pyStrip l == endMarker

/-- A line that is neither a begin marker nor an end marker. -/
def noMarker (l : List Char) : Bool := !(isBegin l) && !(isEnd l)

/-- The loop body of `parse_ics_events`: scan the lines carrying
`current_event` and `in_event`, emitting a joined event on each end
marker.  Mirrors the `for line in lines` loop of the source. -/
def parseAux : List (List Char) → List (List Char) → Bool → List (List Char)
  | [], _, _ => []
  | l :: ls, cur, inE =>
    if isBegin l then parseAux ls [l] true
    else if isEnd l then joinNL (cur ++ [l]) :: parseAux ls [] false
    else if inE then parseAux ls (cur ++ [l]) true
    else parseAux ls cur inE

/-- `parse_ics_events`: split the document into lines and collect the
`BEGIN:VEVENT` … `END:VEVENT` blocks, each returned as one joined string. -/
def parse_ics_events (ics_content : List Char) : List (List Char) :=
  parseAux (splitNL ics_content) [] false

/-- The header loop of `extract_calendar_wrapper`: all lines strictly
before the first line whose strip equals the begin marker. -/
def headerLines (lines : List (List Char)) : List (List Char) :=
  lines.takeWhile (fun l => !(isBegin l))

/-- The footer loop of `extract_calendar_wrapper`, processing the lines
in reversed order: skip end-marker lines (setting `in_event`), collect
lines while `in_event` is false, stop at the first other line once
`in_event` is true.  The collected lines come out in reversed order. -/
def footerAux : Bool → List (List Char) → List (List Char)
  | _, [] => []
  | inE, l :: ls =>
    if isEnd l then footerAux true ls
    else if inE then []
    else l :: footerAux inE ls

/-- The footer of a document: the lines after the last end-marker line
(all lines when there is no end-marker line at all). -/
def footerLines (lines : List (List Char)) : List (List Char) :=
  (footerAux false lines.reverse).reverse

/-- `extract_calendar_wrapper`: the `(header, footer)` pair. -/
def extract_calendar_wrapper (ics_content : List Char) : List Char × List Char :=
  (joinNL (headerLines (splitNL ics_content)),
   joinNL (footerLines (splitNL ics_content)))

/-- `create_ics_file`: `'\n'.join([header.strip()] + events + [footer.strip()])`. -/
def create_ics_file (events : List (List Char)) (original_header original_footer : List Char) :
    List Char :=
  joinNL (pyStrip original_header :: (events ++ [pyStrip original_footer]))

/-- The split-then-reassemble composition of `main` with the identity
filter: reassemble the full record list with the original envelope. -/
def roundTrip (ics : List Char) : List Char :=
  create_ics_file (parse_ics_events ics)
    (extract_calendar_wrapper ics).1 (extract_calendar_wrapper ics).2

/-- A calendar date as compared by Python `datetime` (the time component
of every extracted `datetime` is midnight and the filtering is
whole-day, so only the date triple matters for comparisons). -/
structure PyDate where
  year : Nat
  month : Nat
  day : Nat
deriving DecidableEq, Repr

deriving instance DecidableEq for Except

/-- Python `datetime` comparison (lexicographic on the components). -/
def dateLe (a b : PyDate) : Bool :=
  decide (a.year < b.year ∨ (a.year = b.year ∧
    (a.month < b.month ∨ (a.month = b.month ∧ a.day ≤ b.day))))

/-- `datetime.min`, the sentinel returned when no `DTSTART` is found. -/
def datetimeMin : PyDate := ⟨1, 1, 1⟩

/-- Gregorian leap-year test used by `datetime`. -/
def isLeap (y : Nat) : Bool := y % 4 == 0 && (y % 100 != 0 || y % 400 == 0)

/-- Number of days of a month, as validated by the `datetime` constructor. -/
def daysInMonth (y m : Nat) : Nat :=
  if m = 2 then (if isLeap y then 29 else 28)
  else if m = 4 ∨ m = 6 ∨ m = 9 ∨ m = 11 then 30
  else 31

/-- Decimal value of a digit string. -/
def digitsToNat (ds : List Char) : Nat :=
  ds.foldl (fun a c => a * 10 + (c.toNat - '0'.toNat)) 0

/-- `datetime.strptime(ds, '%Y%m%d')` on an 8-character digit string:
parse year(4)/month(2)/day(2) and validate the ranges checked by the
`datetime` constructor; `none` models the raised `ValueError`. -/
def strptimeYmd (ds : List Char) : Option PyDate :=
  if ds.length = 8 ∧ ds.all Char.isDigit then
    let y := digitsToNat (ds.take 4)
    let m := digitsToNat ((ds.drop 4).take 2)
    let d := digitsToNat (ds.drop 6)
    if 1 ≤ y ∧ y ≤ 9999 ∧ 1 ≤ m ∧ m ≤ 12 ∧ 1 ≤ d ∧ d ≤ daysInMonth y m then
      some ⟨y, m, d⟩
    else none
  else none

/-- The tail of the regex capture group `(\d{8}T?\d*)`: after the colon,
require eight digits, then greedily take an optional `T` and further
digits.  Returns the captured text. -/
def matchDigits (s : List Char) : Option (List Char) :=
  let d8 := s.take 8
  if d8.length = 8 ∧ d8.all Char.isDigit then
    let rest := s.drop 8
    let tail :=
      match rest with
      | 'T' :: r => 'T' :: r.takeWhile Char.isDigit
      | r => r.takeWhile Char.isDigit
    some (d8 ++ tail)
  else none

/-- Try to match `DTSTART(?:;[^:]*)?:(\d{8}T?\d*)` at the head of `s`.
After the literal `DTSTART`, a `;` commits to the optional parameter
group, which runs to the next `:` (backtracking cannot help, since
`[^:]*` can never cross a colon); a `:` skips the optional group. -/
def matchFrom (s : List Char) : Option (List Char) :=
  if s.take 7 = "DTSTART".data then
    match s.drop 7 with
    | ':' :: r => matchDigits r
    | ';' :: r =>
      match r.dropWhile (fun c => c != ':') with
      | ':' :: r2 => matchDigits r2
      | _ => none
    | _ => none
  else none

/-- `re.search`: try the pattern at every start position, left to right. -/
def reSearch : List Char → Option (List Char)
  | [] => matchFrom []
  | c :: cs =>
    match matchFrom (c :: cs) with
    | some r => some r
    | none => reSearch cs

/-- `extract_event_date`: search for the `DTSTART` pattern; on a match,
`strptime` the first eight captured characters (the two branches of the
source's `if 'T' in date_str` are identical); with no match return
`datetime.min`.  `.error ()` models the uncaught `ValueError` raised by
`strptime` on an impossible date. -/
def extract_event_date (event : List Char) : Except Unit PyDate :=
  match reSearch event with
  | some date_str =>
    match strptimeYmd (date_str.take 8) with
    | some d => .ok d
    | none => .error ()
  | none => .ok datetimeMin

/-- `filter_events_by_date`: keep the events whose extracted date lies in
the inclusive window; a `ValueError` raised while extracting any event
propagates out of the loop. -/
def filter_events_by_date :
    List (List Char) → PyDate → PyDate → Except Unit (List (List Char))
  | [], _, _ => .ok []
  | ev :: evs, start_date, end_date =>
    match extract_event_date ev with
    | .error u => .error u
    | .ok d =>
      match filter_events_by_date evs start_date end_date with
      | .error u => .error u
      | .ok rest =>
        if dateLe start_date d && dateLe d end_date then .ok (ev :: rest)
        else .ok rest

/-- Shape of the tail of a well-formed record block: marker-free lines
followed by one end-marker line. -/
def blockTail : List (List Char) → Bool
  | [] => false
  | [e] => isEnd e
  | l :: l' :: ls => noMarker l && blockTail (l' :: ls)

/-- Shape of a well-formed record block: a begin-marker line, marker-free
interior lines, and a final end-marker line. -/
def isBlockLines : List (List Char) → Bool
  | [] => false
  | b :: rest => isBegin b && blockTail rest

/-- A record string whose lines form a well-formed block. -/
def isGoodRecord (r : List Char) : Bool := isBlockLines (splitNL r)

/-- Scan check: every end-marker line occurs while a record is open
(no stray end markers), mirroring the scan state of `parse_ics_events`. -/
def noStray : List (List Char) → Bool → Bool
  | [], _ => true
  | l :: ls, inE =>
    if isBegin l then noStray ls true
    else if isEnd l then inE && noStray ls false
    else noStray ls inE

/-- Append a character to the last line of a line list (the effect of
appending one non-newline character to a document, on its lines). -/
def snocLast (c : Char) : List (List Char) → List (List Char)
  | [] => [[c]]
  | [l] => [l ++ [c]]
  | l :: l' :: ls => l :: snocLast c (l' :: ls)

/-! ### Lines: `splitNL` and `joinNL` -/

theorem splitNL_ne_nil (s : List Char) : splitNL s ≠ [] := by
  cases s with
  | nil => simp [splitNL]
  | cons c cs =>
    simp only [splitNL]
    split
    · simp
    · split <;> simp

theorem mem_splitNL_no_NL (s : List Char) : ∀ l ∈ splitNL s, ∀ c ∈ l, c ≠ NL := by
  induction s with
  | nil =>
    intro l hl
    simp only [splitNL, List.mem_singleton] at hl
    subst hl
    intro c hc
    cases hc
  | cons a s ih =>
    intro l hl
    simp only [splitNL] at hl
    split at hl
    · rcases List.mem_cons.mp hl with h | h
      · subst h; intro c hc; cases hc
      · exact ih l h
    · rename_i ha
      split at hl
      · rename_i heq; exact absurd heq (splitNL_ne_nil s)
      · rename_i r rs heq
        rcases List.mem_cons.mp hl with h | h
        · subst h
          intro c hc
          rcases List.mem_cons.mp hc with h' | h'
          · subst h'; exact ha
          · exact ih r (by rw [heq]; exact List.mem_cons_self r rs) c h'
        · exact ih l (by rw [heq]; exact List.mem_cons_of_mem r h)

theorem splitNL_of_no_NL (s : List Char) (h : ∀ c ∈ s, c ≠ NL) : splitNL s = [s] := by
  induction s with
  | nil => rfl
  | cons a s ih =>
    have ha : a ≠ NL := h a (List.mem_cons_self a s)
    have hs : splitNL s = [s] := ih (fun c hc => h c (List.mem_cons_of_mem a hc))
    simp [splitNL, ha, hs]

theorem splitNL_cons_NL (s : List Char) : splitNL (NL :: s) = [] :: splitNL s := by
  simp [splitNL]

theorem splitNL_cons_ne (c : Char) (s : List Char) (hc : c ≠ NL)
    (r : List Char) (rs : List (List Char)) (hr : splitNL s = r :: rs) :
    splitNL (c :: s) = (c :: r) :: rs := by
  simp [splitNL, hc, hr]

theorem joinNL_splitNL (s : List Char) : joinNL (splitNL s) = s := by
  induction s with
  | nil => rfl
  | cons a s ih =>
    rcases hr : splitNL s with _ | ⟨r, rs⟩
    · exact absurd hr (splitNL_ne_nil s)
    · rw [hr] at ih
      by_cases ha : a = NL
      · subst ha
        rw [splitNL_cons_NL, hr]
        cases rs with
        | nil => simp only [joinNL] at ih ⊢; rw [ih]; rfl
        | cons x xs => simp only [joinNL] at ih ⊢; rw [ih]; rfl
      · rw [splitNL_cons_ne a s ha r rs hr]
        cases rs with
        | nil => simp only [joinNL] at ih ⊢; rw [ih]
        | cons x xs =>
          simp only [joinNL] at ih ⊢
          rw [List.cons_append, ih]

theorem splitNL_append_cons (a b : List Char) :
    splitNL (a ++ NL :: b) = splitNL a ++ splitNL b := by
  induction a with
  | nil => simp [splitNL]
  | cons c a ih =>
    by_cases hc : c = NL
    · subst hc
      rw [List.cons_append, splitNL_cons_NL, splitNL_cons_NL, ih, List.cons_append]
    · rcases hr : splitNL a with _ | ⟨r, rs⟩
      · exact absurd hr (splitNL_ne_nil a)
      · rw [hr] at ih
        rw [List.cons_append,
          splitNL_cons_ne c (a ++ NL :: b) hc r (rs ++ splitNL b) (by rw [ih]; rfl),
          splitNL_cons_ne c a hc r rs hr, List.cons_append]

theorem bind_splitNL_self (ls : List (List Char))
    (h : ∀ l ∈ ls, ∀ c ∈ l, c ≠ NL) : ls.flatMap splitNL = ls := by
  induction ls with
  | nil => rfl
  | cons l ls ih =>
    have h1 : splitNL l = [l] := splitNL_of_no_NL l (h l (List.mem_cons_self l ls))
    have h2 := ih (fun x hx c hc => h x (List.mem_cons_of_mem l hx) c hc)
    simp [List.flatMap_cons, h1, h2]

theorem splitNL_joinNL : ∀ ls : List (List Char), ls ≠ [] →
    splitNL (joinNL ls) = ls.flatMap splitNL
  | [], h => absurd rfl h
  | [l], _ => by simp [joinNL, List.flatMap_cons]
  | l :: l' :: t, _ => by
    rw [joinNL, splitNL_append_cons, splitNL_joinNL (l' :: t) (by simp)]
    simp [List.flatMap_cons]

/-! ### Python `strip` -/

theorem dropWhile_idem (p : Char → Bool) :
    ∀ l : List Char, (l.dropWhile p).dropWhile p = l.dropWhile p
  | [] => rfl
  | c :: t => by
    by_cases h : p c
    · rw [List.dropWhile_cons_of_pos h]
      exact dropWhile_idem p t
    · rw [List.dropWhile_cons_of_neg h, List.dropWhile_cons_of_neg h]

theorem dropWhile_append_of_ne (p : Char → Bool) :
    ∀ xs ys : List Char, xs.dropWhile p ≠ [] →
      (xs ++ ys).dropWhile p = xs.dropWhile p ++ ys
  | [], _, h => absurd rfl h
  | c :: xs, ys, h => by
    by_cases hc : p c
    · rw [List.dropWhile_cons_of_pos hc] at h
      rw [List.cons_append, List.dropWhile_cons_of_pos hc, List.dropWhile_cons_of_pos hc]
      exact dropWhile_append_of_ne p xs ys h
    · rw [List.cons_append, List.dropWhile_cons_of_neg hc, List.dropWhile_cons_of_neg hc]
      rfl

theorem dropWhile_append_of_nil (p : Char → Bool) :
    ∀ xs ys : List Char, xs.dropWhile p = [] →
      (xs ++ ys).dropWhile p = ys.dropWhile p
  | [], _, _ => rfl
  | c :: xs, ys, h => by
    by_cases hc : p c
    · rw [List.dropWhile_cons_of_pos hc] at h
      rw [List.cons_append, List.dropWhile_cons_of_pos hc]
      exact dropWhile_append_of_nil p xs ys h
    · rw [List.dropWhile_cons_of_neg hc] at h
      cases h

theorem rightStrip_snoc_space (u : List Char) (c : Char) (h : isPySpace c = true) :
    rightStrip (u ++ [c]) = rightStrip u := by
  unfold rightStrip
  simp only [List.reverse_append, List.reverse_cons, List.reverse_nil, List.nil_append,
    List.singleton_append]
  rw [List.dropWhile_cons_of_pos h]

theorem rightStrip_snoc_nospace (u : List Char) (c : Char) (h : ¬ isPySpace c = true) :
    rightStrip (u ++ [c]) = u ++ [c] := by
  unfold rightStrip
  simp only [List.reverse_append, List.reverse_cons, List.reverse_nil, List.nil_append,
    List.singleton_append]
  rw [List.dropWhile_cons_of_neg h]
  simp

theorem rightStrip_idem (u : List Char) : rightStrip (rightStrip u) = rightStrip u := by
  unfold rightStrip
  rw [List.reverse_reverse, dropWhile_idem]

theorem rightStrip_cons_nospace (c : Char) (t : List Char) (h : ¬ isPySpace c = true) :
    rightStrip (c :: t) = c :: rightStrip t := by
  unfold rightStrip
  rw [List.reverse_cons]
  rcases hd : t.reverse.dropWhile isPySpace with _ | ⟨x, xs⟩
  · rw [dropWhile_append_of_nil _ _ _ hd, List.dropWhile_cons_of_neg h]
    try simp
  · rw [dropWhile_append_of_ne _ _ _ (by rw [hd]; simp), hd]
    try simp

theorem leftStrip_cons_nospace (c : Char) (t : List Char) (h : ¬ isPySpace c = true) :
    leftStrip (c :: t) = c :: t := by
  unfold leftStrip
  rw [List.dropWhile_cons_of_neg h]

theorem leftStrip_rightStrip (s : List Char) (h : leftStrip s = s) :
    leftStrip (rightStrip s) = rightStrip s := by
  cases s with
  | nil => rfl
  | cons c t =>
    have hc : ¬ isPySpace c = true := by
      intro hc
      have h1 : leftStrip (c :: t) = leftStrip t := by
        unfold leftStrip
        rw [List.dropWhile_cons_of_pos hc]
      rw [h1] at h
      have h2 : (leftStrip t).length ≤ t.length :=
        (List.dropWhile_sublist (l := t) isPySpace).length_le
      rw [h] at h2
      simp at h2
    rw [rightStrip_cons_nospace c t hc]
    exact leftStrip_cons_nospace c _ hc

theorem pyStrip_idem (s : List Char) : pyStrip (pyStrip s) = pyStrip s := by
  unfold pyStrip
  rw [leftStrip_rightStrip (leftStrip s) (dropWhile_idem isPySpace s), rightStrip_idem]

theorem pyStrip_cons_space (c : Char) (s : List Char) (h : isPySpace c = true) :
    pyStrip (c :: s) = pyStrip s := by
  unfold pyStrip leftStrip
  rw [List.dropWhile_cons_of_pos h]

theorem pyStrip_snoc_space (s : List Char) (c : Char) (h : isPySpace c = true) :
    pyStrip (s ++ [c]) = pyStrip s := by
  unfold pyStrip leftStrip
  by_cases hs : s.dropWhile isPySpace = []
  · rw [dropWhile_append_of_nil _ _ _ hs, hs, List.dropWhile_cons_of_pos h]
    rfl
  · rw [dropWhile_append_of_ne _ _ _ hs]
    exact rightStrip_snoc_space _ c h

/-! ### Lines of a stripped string -/

theorem splitNL_snoc (c : Char) (hc : c ≠ NL) :
    ∀ a : List Char, splitNL (a ++ [c]) = snocLast c (splitNL a)
  | [] => by simp [splitNL, snocLast, hc]
  | d :: a => by
    by_cases hd : d = NL
    · subst hd
      rw [List.cons_append, splitNL_cons_NL, splitNL_cons_NL, splitNL_snoc c hc a]
      rcases hr : splitNL a with _ | ⟨r, rs⟩
      · exact absurd hr (splitNL_ne_nil a)
      · rfl
    · rcases hr : splitNL a with _ | ⟨r, rs⟩
      · exact absurd hr (splitNL_ne_nil a)
      · have ih := splitNL_snoc c hc a
        rw [hr] at ih
        cases rs with
        | nil =>
          rw [List.cons_append, splitNL_cons_ne d (a ++ [c]) hd (r ++ [c]) [] (by rw [ih]; rfl),
            splitNL_cons_ne d a hd r [] hr]
          rfl
        | cons x xs =>
          rw [List.cons_append,
            splitNL_cons_ne d (a ++ [c]) hd r (snocLast c (x :: xs)) (by rw [ih]; rfl),
            splitNL_cons_ne d a hd r (x :: xs) hr]
          rfl

theorem mem_to_snocLast (c : Char) (hc : isPySpace c = true) :
    ∀ ls : List (List Char), ∀ l ∈ ls, ∃ l₀ ∈ snocLast c ls, pyStrip l₀ = pyStrip l
  | [], l, hl => absurd hl (List.not_mem_nil l)
  | [x], l, hl => by
    have hx : l = x := List.mem_singleton.mp hl
    subst hx
    exact ⟨l ++ [c], List.mem_singleton.mpr rfl, pyStrip_snoc_space l c hc⟩
  | x :: y :: ys, l, hl => by
    rcases List.mem_cons.mp hl with h | h
    · subst h
      refine ⟨l, ?_, rfl⟩
      show l ∈ l :: snocLast c (y :: ys)
      exact List.mem_cons_self _ _
    · obtain ⟨l₀, h0, he⟩ := mem_to_snocLast c hc (y :: ys) l h
      refine ⟨l₀, ?_, he⟩
      show l₀ ∈ x :: snocLast c (y :: ys)
      exact List.mem_cons_of_mem x h0

theorem mem_splitNL_leftStrip :
    ∀ s : List Char, ∀ l' ∈ splitNL (leftStrip s), ∃ l ∈ splitNL s, pyStrip l' = pyStrip l
  | [], l', h => ⟨l', h, rfl⟩
  | a :: s, l', h => by
    by_cases ha : isPySpace a
    · have h1 : leftStrip (a :: s) = leftStrip s := by
        unfold leftStrip
        rw [List.dropWhile_cons_of_pos ha]
      rw [h1] at h
      obtain ⟨l, hl, he⟩ := mem_splitNL_leftStrip s l' h
      by_cases hnl : a = NL
      · subst hnl
        exact ⟨l, by rw [splitNL_cons_NL]; exact List.mem_cons_of_mem _ hl, he⟩
      · rcases hr : splitNL s with _ | ⟨r, rs⟩
        · exact absurd hr (splitNL_ne_nil s)
        · rw [hr] at hl
          rw [splitNL_cons_ne a s hnl r rs hr]
          rcases List.mem_cons.mp hl with h2 | h2
          · subst h2
            exact ⟨a :: l, List.mem_cons_self _ _, he.trans (pyStrip_cons_space a l ha).symm⟩
          · exact ⟨l, List.mem_cons_of_mem _ h2, he⟩
    · rw [leftStrip_cons_nospace a s ha] at h
      exact ⟨l', h, rfl⟩

theorem mem_splitNL_rightStrip (s : List Char) :
    ∀ l' ∈ splitNL (rightStrip s), ∃ l ∈ splitNL s, pyStrip l' = pyStrip l := by
  induction s using List.reverseRecOn with
  | nil => exact fun l' h => ⟨l', h, rfl⟩
  | append_singleton a c ih =>
    by_cases hc : isPySpace c
    · rw [rightStrip_snoc_space a c hc]
      intro l' h
      obtain ⟨l, hl, he⟩ := ih l' h
      by_cases hnl : c = NL
      · subst hnl
        refine ⟨l, ?_, he⟩
        have h5 : splitNL (a ++ [NL]) = splitNL a ++ [[]] := by
          rw [show a ++ [NL] = a ++ NL :: [] from rfl, splitNL_append_cons]
          rfl
        rw [h5]
        exact List.mem_append_left _ hl
      · rw [splitNL_snoc c hnl a]
        obtain ⟨l₀, h0, he0⟩ := mem_to_snocLast c hc (splitNL a) l hl
        exact ⟨l₀, h0, he.trans he0.symm⟩
    · rw [rightStrip_snoc_nospace a c hc]
      exact fun l' h => ⟨l', h, rfl⟩

theorem mem_splitNL_pyStrip (s : List Char) :
    ∀ l' ∈ splitNL (pyStrip s), ∃ l ∈ splitNL s, pyStrip l' = pyStrip l := by
  intro l' h
  obtain ⟨l₁, h1, he1⟩ := mem_splitNL_rightStrip (leftStrip s) l' h
  obtain ⟨l, hl, he⟩ := mem_splitNL_leftStrip s l₁ h1
  exact ⟨l, hl, he1.trans he⟩

/-! ### Markers -/

theorem noMarker_split {l : List Char} (h : noMarker l = true) :
    isBegin l = false ∧ isEnd l = false := by
  simpa [noMarker] using h

theorem isBegin_not_isEnd {l : List Char} (h : isBegin l = true) : isEnd l = false := by
  have hb : pyStrip l = beginMarker := eq_of_beq h
  show (pyStrip l == endMarker) = false
  rw [hb]
  decide

theorem isEnd_not_isBegin {l : List Char} (h : isEnd l = true) : isBegin l = false := by
  have hb : pyStrip l = endMarker := eq_of_beq h
  show (pyStrip l == beginMarker) = false
  rw [hb]
  decide

/-! ### The record scanner `parseAux` -/

theorem parseAux_cons_begin {l : List Char} {ls cur : List (List Char)} {inE : Bool}
    (h : isBegin l = true) : parseAux (l :: ls) cur inE = parseAux ls [l] true := by
  simp [parseAux, h]

theorem parseAux_cons_end {l : List Char} {ls cur : List (List Char)} {inE : Bool}
    (h1 : isBegin l = false) (h2 : isEnd l = true) :
    parseAux (l :: ls) cur inE = joinNL (cur ++ [l]) :: parseAux ls [] false := by
  simp [parseAux, h1, h2]

theorem parseAux_cons_mid {l : List Char} {ls cur : List (List Char)}
    (h1 : isBegin l = false) (h2 : isEnd l = false) :
    parseAux (l :: ls) cur true = parseAux ls (cur ++ [l]) true := by
  simp [parseAux, h1, h2]

theorem parseAux_cons_skip {l : List Char} {ls cur : List (List Char)}
    (h1 : isBegin l = false) (h2 : isEnd l = false) :
    parseAux (l :: ls) cur false = parseAux ls cur false := by
  simp [parseAux, h1, h2]

theorem parseAux_nil_of_no_marker :
    ∀ (ls cur : List (List Char)) (inE : Bool),
      (∀ l ∈ ls, noMarker l = true) → parseAux ls cur inE = []
  | [], _, _, _ => rfl
  | l :: ls, cur, inE, h => by
    have hm := noMarker_split (h l (List.mem_cons_self l ls))
    have ht : ∀ x ∈ ls, noMarker x = true := fun x hx => h x (List.mem_cons_of_mem l hx)
    cases inE with
    | true =>
      rw [parseAux_cons_mid hm.1 hm.2]
      exact parseAux_nil_of_no_marker ls (cur ++ [l]) true ht
    | false =>
      rw [parseAux_cons_skip hm.1 hm.2]
      exact parseAux_nil_of_no_marker ls cur false ht

theorem parseAux_unterminated :
    ∀ (pre : List (List Char)) (b : List Char) (post cur : List (List Char)) (inE : Bool),
      isBegin b = true → (∀ l ∈ post, noMarker l = true) →
      parseAux (pre ++ b :: post) cur inE = parseAux pre cur inE
  | [], b, post, cur, inE, hb, hpost => by
    rw [List.nil_append, parseAux_cons_begin hb]
    exact parseAux_nil_of_no_marker post [b] true hpost
  | l :: pre, b, post, cur, inE, hb, hpost => by
    by_cases h1 : isBegin l = true
    · rw [List.cons_append, parseAux_cons_begin h1, parseAux_cons_begin h1]
      exact parseAux_unterminated pre b post [l] true hb hpost
    · have h1' : isBegin l = false := by simpa using h1
      by_cases h2 : isEnd l = true
      · rw [List.cons_append, parseAux_cons_end h1' h2, parseAux_cons_end h1' h2,
          parseAux_unterminated pre b post [] false hb hpost]
      · have h2' : isEnd l = false := by simpa using h2
        cases inE with
        | true =>
          rw [List.cons_append, parseAux_cons_mid h1' h2', parseAux_cons_mid h1' h2']
          exact parseAux_unterminated pre b post (cur ++ [l]) true hb hpost
        | false =>
          rw [List.cons_append, parseAux_cons_skip h1' h2', parseAux_cons_skip h1' h2']
          exact parseAux_unterminated pre b post cur false hb hpost

theorem parseAux_skip :
    ∀ (xs ls cur : List (List Char)), (∀ l ∈ xs, noMarker l = true) →
      parseAux (xs ++ ls) cur false = parseAux ls cur false
  | [], _, _, _ => rfl
  | x :: xs, ls, cur, h => by
    have hm := noMarker_split (h x (List.mem_cons_self x xs))
    rw [List.cons_append, parseAux_cons_skip hm.1 hm.2]
    exact parseAux_skip xs ls cur (fun l hl => h l (List.mem_cons_of_mem x hl))

theorem parseAux_mid :
    ∀ (xs ls cur : List (List Char)), (∀ l ∈ xs, noMarker l = true) →
      parseAux (xs ++ ls) cur true = parseAux ls (cur ++ xs) true
  | [], ls, cur, _ => by rw [List.nil_append, List.append_nil]
  | x :: xs, ls, cur, h => by
    have hm := noMarker_split (h x (List.mem_cons_self x xs))
    rw [List.cons_append, parseAux_cons_mid hm.1 hm.2,
      parseAux_mid xs ls (cur ++ [x]) (fun l hl => h l (List.mem_cons_of_mem x hl)),
      List.append_assoc, List.singleton_append]

/-! ### Block shapes -/

theorem blockTail_decomp : ∀ ls, blockTail ls = true →
    ∃ mid e, ls = mid ++ [e] ∧ isEnd e = true ∧ ∀ l ∈ mid, noMarker l = true
  | [], h => by cases h
  | [e], h => ⟨[], e, rfl, h, by intro l hl; cases hl⟩
  | l :: l' :: ls, h => by
    have h2 : noMarker l = true ∧ blockTail (l' :: ls) = true := by
      simpa [blockTail] using h
    obtain ⟨mid, e, he, hee, hm⟩ := blockTail_decomp (l' :: ls) h2.2
    refine ⟨l :: mid, e, ?_, hee, ?_⟩
    · rw [List.cons_append, ← he]
    · intro x hx
      rcases List.mem_cons.mp hx with h3 | h3
      · subst h3; exact h2.1
      · exact hm x h3

theorem blockTail_build : ∀ (mid : List (List Char)) (e : List Char),
    isEnd e = true → (∀ l ∈ mid, noMarker l = true) → blockTail (mid ++ [e]) = true
  | [], e, he, _ => he
  | l :: mid, e, he, hm => by
    have h1 : noMarker l = true := hm l (List.mem_cons_self l mid)
    have h2 : blockTail (mid ++ [e]) = true :=
      blockTail_build mid e he (fun x hx => hm x (List.mem_cons_of_mem l hx))
    rcases hq : mid ++ [e] with _ | ⟨x, xs⟩
    · cases mid <;> simp at hq
    · show blockTail (l :: (mid ++ [e])) = true
      rw [hq] at h2 ⊢
      simp [blockTail, h1, h2]

/-! ### `takeWhile` and the footer loop -/

theorem takeWhile_append_stop (q : List Char → Bool) :
    ∀ (xs : List (List Char)) (y : List Char) (ys : List (List Char)), q y = false →
      (xs ++ y :: ys).takeWhile q = xs.takeWhile q
  | [], y, ys, h => by simp [List.takeWhile_cons, h]
  | x :: xs, y, ys, h => by
    by_cases hx : q x = true
    · rw [List.cons_append, List.takeWhile_cons_of_pos hx, List.takeWhile_cons_of_pos hx,
        takeWhile_append_stop q xs y ys h]
    · rw [List.cons_append, List.takeWhile_cons_of_neg hx, List.takeWhile_cons_of_neg hx]

theorem footerAux_cons_end {l : List Char} {ls : List (List Char)} {inE : Bool}
    (h : isEnd l = true) : footerAux inE (l :: ls) = footerAux true ls := by
  simp [footerAux, h]

theorem footerAux_cons_keep {l : List Char} {ls : List (List Char)}
    (h : isEnd l = false) : footerAux false (l :: ls) = l :: footerAux false ls := by
  simp [footerAux, h]

theorem footerAux_cons_stop {l : List Char} {ls : List (List Char)}
    (h : isEnd l = false) : footerAux true (l :: ls) = [] := by
  simp [footerAux, h]

theorem footerAux_true : ∀ ls, footerAux true ls = []
  | [] => rfl
  | l :: ls => by
    by_cases h : isEnd l = true
    · rw [footerAux_cons_end h]
      exact footerAux_true ls
    · have h' : isEnd l = false := by simpa using h
      rw [footerAux_cons_stop h']

theorem footerAux_false_no_end : ∀ xs ys, (∀ l ∈ xs, isEnd l = false) →
    footerAux false (xs ++ ys) = xs ++ footerAux false ys
  | [], _, _ => rfl
  | l :: xs, ys, h => by
    have h1 := h l (List.mem_cons_self l xs)
    rw [List.cons_append, footerAux_cons_keep h1,
      footerAux_false_no_end xs ys (fun x hx => h x (List.mem_cons_of_mem l hx)),
      List.cons_append]

theorem footerAux_false_all (ls : List (List Char)) (h : ∀ l ∈ ls, isEnd l = false) :
    footerAux false ls = ls := by
  have h2 := footerAux_false_no_end ls [] h
  simpa [show footerAux false ([] : List (List Char)) = [] from rfl] using h2

theorem mem_footerAux : ∀ (inE : Bool) (ls : List (List Char)) (l : List Char),
    l ∈ footerAux inE ls → l ∈ ls ∧ isEnd l = false
  | _, [], l, h => by cases h
  | inE, x :: ls, l, h => by
    by_cases hx : isEnd x = true
    · rw [footerAux_cons_end hx] at h
      obtain ⟨h1, h2⟩ := mem_footerAux true ls l h
      exact ⟨List.mem_cons_of_mem x h1, h2⟩
    · have hx' : isEnd x = false := by simpa using hx
      cases inE with
      | true =>
        rw [footerAux_cons_stop hx'] at h
        cases h
      | false =>
        rw [footerAux_cons_keep hx'] at h
        rcases List.mem_cons.mp h with h1 | h1
        · subst h1
          exact ⟨List.mem_cons_self _ _, hx'⟩
        · obtain ⟨h2, h3⟩ := mem_footerAux false ls l h1
          exact ⟨List.mem_cons_of_mem x h2, h3⟩

/-! ### Structured documents -/

theorem parseAux_blocks :
    ∀ (blocks : List (List (List Char))) (F : List (List Char)),
      (∀ B ∈ blocks, isBlockLines B = true) → (∀ l ∈ F, noMarker l = true) →
      parseAux (blocks.flatten ++ F) [] false = blocks.map joinNL
  | [], F, _, hF => by
    rw [List.flatten_nil, List.nil_append, List.map_nil]
    exact parseAux_nil_of_no_marker F [] false hF
  | B :: bs, F, hB, hF => by
    have h1 : isBlockLines B = true := hB B (List.mem_cons_self B bs)
    rcases B with _ | ⟨b, rest⟩
    · cases h1
    · have h2 : isBegin b = true ∧ blockTail rest = true := by
        simpa [isBlockLines] using h1
      obtain ⟨mid, e, hrest, he, hmid⟩ := blockTail_decomp rest h2.2
      subst hrest
      rw [List.flatten_cons]
      have hassoc : ((b :: (mid ++ [e])) ++ bs.flatten) ++ F
          = b :: (mid ++ (e :: (bs.flatten ++ F))) := by
        simp
      rw [hassoc, parseAux_cons_begin h2.1, parseAux_mid mid (e :: (bs.flatten ++ F)) [b] hmid,
        parseAux_cons_end (isEnd_not_isBegin he) he,
        parseAux_blocks bs F (fun x hx => hB x (List.mem_cons_of_mem _ hx)) hF,
        List.map_cons]
      congr 1

theorem headerLines_structured (H : List (List Char)) (b : List Char)
    (rest : List (List Char)) (hH : ∀ l ∈ H, isBegin l = false) (hb : isBegin b = true) :
    headerLines (H ++ b :: rest) = H := by
  unfold headerLines
  rw [takeWhile_append_stop _ H b rest (by simp [hb])]
  exact List.takeWhile_eq_self_iff.mpr (fun x hx => by simp [hH x hx])

theorem footerLines_after_end (X F : List (List Char)) (e : List Char)
    (he : isEnd e = true) (hF : ∀ l ∈ F, isEnd l = false) :
    footerLines (X ++ e :: F) = F := by
  unfold footerLines
  have h1 : (X ++ e :: F).reverse = F.reverse ++ (e :: X.reverse) := by
    simp
  rw [h1, footerAux_false_no_end _ _ (fun l hl => hF l (List.mem_reverse.mp hl)),
    footerAux_cons_end he, footerAux_true, List.append_nil, List.reverse_reverse]

/-! ### The date filter -/

theorem dateLe_trans {a b c : PyDate} (h1 : dateLe a b = true) (h2 : dateLe b c = true) :
    dateLe a c = true := by
  simp only [dateLe, decide_eq_true_eq] at h1 h2 ⊢
  omega

theorem filter_ok_sublist :
    ∀ (evs : List (List Char)) (s e : PyDate) (out : List (List Char)),
      filter_events_by_date evs s e = .ok out → List.Sublist out evs
  | [], s, e, out, h => by
    simp only [filter_events_by_date] at h
    have h' : ([] : List (List Char)) = out := by simpa using h
    subst h'
    exact List.nil_sublist []
  | ev :: evs, s, e, out, h => by
    simp only [filter_events_by_date] at h
    rcases hx : extract_event_date ev with u | d
    · simp [hx] at h
    · simp only [hx] at h
      rcases hf : filter_events_by_date evs s e with u | rest
      · simp [hf] at h
      · simp only [hf] at h
        by_cases hc : (dateLe s d && dateLe d e) = true
        · rw [if_pos hc] at h
          have h' : ev :: rest = out := by simpa using h
          subst h'
          exact List.Sublist.cons₂ ev (filter_ok_sublist evs s e rest hf)
        · rw [if_neg hc] at h
          have h' : rest = out := by simpa using h
          subst h'
          exact List.Sublist.cons ev (filter_ok_sublist evs s e rest hf)

theorem mem_filter_ok :
    ∀ (evs : List (List Char)) (s e : PyDate) (out : List (List Char)),
      filter_events_by_date evs s e = .ok out →
      ∀ r : List Char, r ∈ out ↔ (r ∈ evs ∧
        ∃ d, extract_event_date r = .ok d ∧ dateLe s d = true ∧ dateLe d e = true)
  | [], s, e, out, h, r => by
    simp only [filter_events_by_date] at h
    have h' : ([] : List (List Char)) = out := by simpa using h
    subst h'
    simp
  | ev :: evs, s, e, out, h, r => by
    simp only [filter_events_by_date] at h
    rcases hx : extract_event_date ev with u | d
    · simp [hx] at h
    · simp only [hx] at h
      rcases hf : filter_events_by_date evs s e with u | rest
      · simp [hf] at h
      · simp only [hf] at h
        have ih := mem_filter_ok evs s e rest hf
        by_cases hc : (dateLe s d && dateLe d e) = true
        · rw [if_pos hc] at h
          have h' : ev :: rest = out := by simpa using h
          subst h'
          have hc' : dateLe s d = true ∧ dateLe d e = true := by simpa using hc
          constructor
          · intro hr
            rcases List.mem_cons.mp hr with h3 | h3
            · subst h3
              exact ⟨List.mem_cons_self _ _, d, hx, hc'.1, hc'.2⟩
            · have h4 := (ih r).mp h3
              exact ⟨List.mem_cons_of_mem ev h4.1, h4.2⟩
          · rintro ⟨hmem, d', hd', hw1, hw2⟩
            rcases List.mem_cons.mp hmem with h3 | h3
            · subst h3
              exact List.mem_cons_self _ _
            · exact List.mem_cons_of_mem ev ((ih r).mpr ⟨h3, d', hd', hw1, hw2⟩)
        · rw [if_neg hc] at h
          have h' : rest = out := by simpa using h
          subst h'
          constructor
          · intro hr
            have h4 := (ih r).mp hr
            exact ⟨List.mem_cons_of_mem ev h4.1, h4.2⟩
          · rintro ⟨hmem, d', hd', hw1, hw2⟩
            rcases List.mem_cons.mp hmem with h3 | h3
            · subst h3
              rw [hx] at hd'
              have hdd : d = d' := by simpa using hd'
              subst hdd
              exact absurd (by simp [hw1, hw2]) hc
            · exact (ih r).mpr ⟨h3, d', hd', hw1, hw2⟩

theorem filter_idem_aux :
    ∀ (evs : List (List Char)) (s e : PyDate) (out : List (List Char)),
      filter_events_by_date evs s e = .ok out →
      filter_events_by_date out s e = .ok out
  | [], s, e, out, h => by
    simp only [filter_events_by_date] at h
    have h' : ([] : List (List Char)) = out := by simpa using h
    subst h'
    rfl
  | ev :: evs, s, e, out, h => by
    simp only [filter_events_by_date] at h
    rcases hx : extract_event_date ev with u | d
    · simp [hx] at h
    · simp only [hx] at h
      rcases hf : filter_events_by_date evs s e with u | rest
      · simp [hf] at h
      · simp only [hf] at h
        have ih := filter_idem_aux evs s e rest hf
        by_cases hc : (dateLe s d && dateLe d e) = true
        · rw [if_pos hc] at h
          have h' : ev :: rest = out := by simpa using h
          subst h'
          simp only [filter_events_by_date, hx, ih, if_pos hc]
        · rw [if_neg hc] at h
          have h' : rest = out := by simpa using h
          subst h'
          exact ih

/-! ### Shape of the emitted records -/

theorem parseAux_good :
    ∀ (ls cur : List (List Char)) (inE : Bool),
      noStray ls inE = true →
      (∀ l ∈ ls, ∀ c ∈ l, c ≠ NL) →
      (∀ l ∈ cur, ∀ c ∈ l, c ≠ NL) →
      (inE = true →
        ∃ b mid, cur = b :: mid ∧ isBegin b = true ∧ ∀ l ∈ mid, noMarker l = true) →
      (inE = false → cur = []) →
      ∀ R ∈ parseAux ls cur inE, isGoodRecord R = true
  | [], _, _, _, _, _, _, _, R, hR => by cases hR
  | l :: ls, cur, inE, hns, hnl, hcur, hinv1, hinv0, R, hR => by
    have hl : ∀ c ∈ l, c ≠ NL := hnl l (List.mem_cons_self l ls)
    have hls : ∀ x ∈ ls, ∀ c ∈ x, c ≠ NL := fun x hx => hnl x (List.mem_cons_of_mem l hx)
    by_cases h1 : isBegin l = true
    · rw [parseAux_cons_begin h1] at hR
      have hns' : noStray ls true = true := by simpa [noStray, h1] using hns
      refine parseAux_good ls [l] true hns' hls ?_ ?_ ?_ R hR
      · intro x hx
        have hx' : x = l := List.mem_singleton.mp hx
        subst hx'
        exact hl
      · exact fun _ => ⟨l, [], rfl, h1, fun x hx => absurd hx (List.not_mem_nil x)⟩
      · intro hcontra
        cases hcontra
    · have h1' : isBegin l = false := by simpa using h1
      by_cases h2 : isEnd l = true
      · rw [parseAux_cons_end h1' h2] at hR
        have hns2 : inE = true ∧ noStray ls false = true := by
          simpa [noStray, h1', h2] using hns
        obtain ⟨b, mid, hcurEq, hbb, hmid⟩ := hinv1 hns2.1
        rcases List.mem_cons.mp hR with h3 | h3
        · subst h3
          subst hcurEq
          unfold isGoodRecord
          have hsplit : splitNL (joinNL ((b :: mid) ++ [l])) = (b :: mid) ++ [l] := by
            rw [splitNL_joinNL _ (by simp)]
            refine bind_splitNL_self _ ?_
            intro x hx c hc
            rcases List.mem_append.mp hx with h4 | h4
            · exact hcur x h4 c hc
            · have hx' : x = l := List.mem_singleton.mp h4
              subst hx'
              exact hl c hc
          rw [hsplit]
          have hshape : (b :: mid) ++ [l] = b :: (mid ++ [l]) := rfl
          rw [hshape]
          simp [isBlockLines, hbb, blockTail_build mid l h2 hmid]
        · refine parseAux_good ls [] false hns2.2 hls ?_ ?_ ?_ R h3
          · exact fun x hx => absurd hx (List.not_mem_nil x)
          · intro hcontra
            cases hcontra
          · exact fun _ => rfl
      · have h2' : isEnd l = false := by simpa using h2
        have hns3 : noStray ls inE = true := by simpa [noStray, h1', h2'] using hns
        cases inE with
        | true =>
          rw [parseAux_cons_mid h1' h2'] at hR
          obtain ⟨b, mid, hcurEq, hbb, hmid⟩ := hinv1 rfl
          refine parseAux_good ls (cur ++ [l]) true hns3 hls ?_ ?_ ?_ R hR
          · intro x hx c hc
            rcases List.mem_append.mp hx with h4 | h4
            · exact hcur x h4 c hc
            · have hx' : x = l := List.mem_singleton.mp h4
              subst hx'
              exact hl c hc
          · intro _
            refine ⟨b, mid ++ [l], by rw [hcurEq]; rfl, hbb, ?_⟩
            intro x hx
            rcases List.mem_append.mp hx with h4 | h4
            · exact hmid x h4
            · have hx' : x = l := List.mem_singleton.mp h4
              subst hx'
              simp [noMarker, h1', h2']
          · intro hcontra
            cases hcontra
        | false =>
          rw [parseAux_cons_skip h1' h2'] at hR
          refine parseAux_good ls cur false hns3 hls hcur ?_ hinv0 R hR
          intro hcontra
          cases hcontra

/-! ### Round trip on structured documents -/

theorem map_joinNL_flatMap :
    ∀ bs : List (List (List Char)), (∀ B ∈ bs, splitNL (joinNL B) = B) →
      (bs.map joinNL).flatMap splitNL = bs.flatten
  | [], _ => rfl
  | B :: bs, h => by
    rw [List.map_cons, List.flatMap_cons, h B (List.mem_cons_self B bs),
      map_joinNL_flatMap bs (fun x hx => h x (List.mem_cons_of_mem B hx)), List.flatten_cons]

theorem joinNL_lines_no_marker :
    ∀ ls : List (List Char), (∀ l ∈ ls, ∀ c ∈ l, c ≠ NL) →
      (∀ l ∈ ls, noMarker l = true) →
      ∀ l' ∈ splitNL (joinNL ls), noMarker l' = true
  | [], _, _ => by
    intro l' hl'
    have h0 : l' = [] := by simpa [joinNL, splitNL] using hl'
    subst h0
    decide
  | x :: ls, hnl, h => by
    intro l' hl'
    rw [splitNL_joinNL _ (by simp), bind_splitNL_self _ hnl] at hl'
    exact h l' hl'

theorem strip_lines_no_marker (s : List Char)
    (h : ∀ l ∈ splitNL s, noMarker l = true) :
    ∀ l' ∈ splitNL (pyStrip s), noMarker l' = true := by
  intro l' hl'
  obtain ⟨l, hl, he⟩ := mem_splitNL_pyStrip s l' hl'
  have h2 := h l hl
  simp only [noMarker, isBegin, isEnd, he] at h2 ⊢
  exact h2

theorem roundTrip_structured (ics : List Char) (H : List (List Char))
    (blocks : List (List (List Char))) (F : List (List Char))
    (hsplit : splitNL ics = H ++ blocks.flatten ++ F)
    (hH : ∀ l ∈ H, noMarker l = true)
    (hF : ∀ l ∈ F, noMarker l = true)
    (hB : ∀ B ∈ blocks, isBlockLines B = true)
    (hne : blocks ≠ []) :
    parse_ics_events (roundTrip ics) = parse_ics_events ics ∧
    pyStrip (extract_calendar_wrapper (roundTrip ics)).1
      = pyStrip (extract_calendar_wrapper ics).1 ∧
    pyStrip (extract_calendar_wrapper (roundTrip ics)).2
      = pyStrip (extract_calendar_wrapper ics).2 := by
  have hNL : ∀ l ∈ splitNL ics, ∀ c ∈ l, c ≠ NL := mem_splitNL_no_NL ics
  have hNLH : ∀ l ∈ H, ∀ c ∈ l, c ≠ NL := fun l hl =>
    hNL l (by rw [hsplit]; exact List.mem_append_left _ (List.mem_append_left _ hl))
  have hNLblocks : ∀ l ∈ blocks.flatten, ∀ c ∈ l, c ≠ NL := fun l hl =>
    hNL l (by rw [hsplit]; exact List.mem_append_left _ (List.mem_append_right _ hl))
  have hNLF : ∀ l ∈ F, ∀ c ∈ l, c ≠ NL := fun l hl =>
    hNL l (by rw [hsplit]; exact List.mem_append_right _ hl)
  have hparse : parse_ics_events ics = blocks.map joinNL := by
    unfold parse_ics_events
    rw [hsplit, List.append_assoc, parseAux_skip H _ [] hH,
      parseAux_blocks blocks F hB hF]
  obtain ⟨b0, rest0, bs, hblocksEq⟩ : ∃ b0 rest0 bs, blocks = (b0 :: rest0) :: bs := by
    rcases blocks with _ | ⟨B0, bs⟩
    · exact absurd rfl hne
    · rcases B0 with _ | ⟨b0, rest0⟩
      · have h0 := hB [] (List.mem_cons_self _ _)
        cases h0
      · exact ⟨b0, rest0, bs, rfl⟩
  have hb0 : isBegin b0 = true := by
    have h0 := hB (b0 :: rest0) (by rw [hblocksEq]; exact List.mem_cons_self _ _)
    have h4 : isBegin b0 = true ∧ blockTail rest0 = true := by
      simpa [isBlockLines] using h0
    exact h4.1
  obtain ⟨bs', bl, midl, el, hblocksEq2, hel⟩ :
      ∃ bs' bl midl el, blocks = bs' ++ [bl :: (midl ++ [el])] ∧ isEnd el = true := by
    rcases List.eq_nil_or_concat blocks with h0 | ⟨L, B, hLB⟩
    · exact absurd h0 hne
    · have hBL : isBlockLines B = true := by
        refine hB B ?_
        rw [hLB, List.concat_eq_append]
        exact List.mem_append_right _ (List.mem_cons_self _ _)
      rcases B with _ | ⟨bl, restl⟩
      · cases hBL
      · have h3 : isBegin bl = true ∧ blockTail restl = true := by
          simpa [isBlockLines] using hBL
        obtain ⟨midl, el, hrl, helx, _⟩ := blockTail_decomp restl h3.2
        exact ⟨L, bl, midl, el, by rw [hLB, hrl, List.concat_eq_append], helx⟩
  have hheaderGen : ∀ (G K : List (List Char)), (∀ l ∈ G, isBegin l = false) →
      headerLines (G ++ blocks.flatten ++ K) = G := by
    intro G K hG
    have h0 : G ++ blocks.flatten ++ K = G ++ b0 :: (rest0 ++ (bs.flatten ++ K)) := by
      rw [hblocksEq]
      simp
    rw [h0]
    exact headerLines_structured G b0 _ hG hb0
  have hfooterGen : ∀ (G K : List (List Char)), (∀ l ∈ K, isEnd l = false) →
      footerLines (G ++ blocks.flatten ++ K) = K := by
    intro G K hK
    have h0 : G ++ blocks.flatten ++ K
        = (G ++ (bs'.flatten ++ (bl :: midl))) ++ el :: K := by
      rw [hblocksEq2]
      simp
    rw [h0]
    exact footerLines_after_end _ K el hel hK
  have hheadI : headerLines (splitNL ics) = H := by
    rw [hsplit]
    exact hheaderGen H F (fun l hl => (noMarker_split (hH l hl)).1)
  have hfootI : footerLines (splitNL ics) = F := by
    rw [hsplit]
    exact hfooterGen H F (fun l hl => (noMarker_split (hF l hl)).2)
  have hecw : extract_calendar_wrapper ics = (joinNL H, joinNL F) := by
    unfold extract_calendar_wrapper
    rw [hheadI, hfootI]
  have hout : roundTrip ics
      = joinNL (pyStrip (joinNL H) :: (blocks.map joinNL ++ [pyStrip (joinNL F)])) := by
    unfold roundTrip create_ics_file
    rw [hparse, hecw]
  have hBsplit : ∀ B ∈ blocks, splitNL (joinNL B) = B := by
    intro B hmem
    have hBne : B ≠ [] := by
      intro hcon
      subst hcon
      have h0 := hB [] hmem
      cases h0
    rw [splitNL_joinNL B hBne]
    exact bind_splitNL_self B (fun l hl c hc =>
      hNLblocks l (List.mem_flatten.mpr ⟨B, hmem, hl⟩) c hc)
  have hsplitOut : splitNL (roundTrip ics)
      = splitNL (pyStrip (joinNL H)) ++ blocks.flatten ++ splitNL (pyStrip (joinNL F)) := by
    rw [hout, splitNL_joinNL _ (by simp), List.flatMap_cons, List.flatMap_append,
      map_joinNL_flatMap blocks hBsplit]
    simp [List.append_assoc]
  have hH'nm : ∀ l ∈ splitNL (pyStrip (joinNL H)), noMarker l = true :=
    strip_lines_no_marker (joinNL H) (joinNL_lines_no_marker H hNLH hH)
  have hF'nm : ∀ l ∈ splitNL (pyStrip (joinNL F)), noMarker l = true :=
    strip_lines_no_marker (joinNL F) (joinNL_lines_no_marker F hNLF hF)
  have hparseOut : parse_ics_events (roundTrip ics) = blocks.map joinNL := by
    unfold parse_ics_events
    rw [hsplitOut, List.append_assoc, parseAux_skip _ _ [] hH'nm,
      parseAux_blocks blocks _ hB hF'nm]
  have hheadO : headerLines (splitNL (roundTrip ics)) = splitNL (pyStrip (joinNL H)) := by
    rw [hsplitOut]
    exact hheaderGen _ _ (fun l hl => (noMarker_split (hH'nm l hl)).1)
  have hfootO : footerLines (splitNL (roundTrip ics)) = splitNL (pyStrip (joinNL F)) := by
    rw [hsplitOut]
    exact hfooterGen _ _ (fun l hl => (noMarker_split (hF'nm l hl)).2)
  refine ⟨?_, ?_, ?_⟩
  · rw [hparseOut, hparse]
  · have e1 : (extract_calendar_wrapper (roundTrip ics)).1 = pyStrip (joinNL H) := by
      unfold extract_calendar_wrapper
      rw [hheadO, joinNL_splitNL]
    rw [e1, hecw]
    exact pyStrip_idem (joinNL H)
  · have e2 : (extract_calendar_wrapper (roundTrip ics)).2 = pyStrip (joinNL F) := by
      unfold extract_calendar_wrapper
      rw [hfootO, joinNL_splitNL]
    rw [e2, hecw]
    exact pyStrip_idem (joinNL F)

/-! ### Envelope helper facts -/

theorem headerLines_no_begin (lines : List (List Char)) :
    ∀ l ∈ headerLines lines, isBegin l = false := by
  intro l hl
  have h1 := List.mem_takeWhile_imp hl
  simpa using h1

/-! ## The claims -/

/-- C1: the spec requires malformed date digits (an impossible day such
as `20240230`, matched by the `DTSTART` pattern) to fall back to the
sentinel minimum date, but the code lets the `ValueError` raised by
`strptime` escape `extract_event_date` — modelled by the `.error`
result — so the exception aborts the whole filtering pass. -/
theorem claim1_malformed_date_raises :
    extract_event_date ("DTSTART:20240230".data) = .error () := by decide

/-- C2 counterexample: the input `BEGIN:VEVENT\nX` ends in an
unterminated record, yet its lines make up the entire footer (and the
records list is empty), contradicting the claim that the block's lines
appear in neither records, header, nor footer. -/
theorem claim2_cex :
    parse_ics_events ("BEGIN:VEVENT\nX".data) = [] ∧
    (extract_calendar_wrapper ("BEGIN:VEVENT\nX".data)).2 = "BEGIN:VEVENT\nX".data := by
  decide

/-- C2 (amended): when the input splits into earlier lines `pre` followed
by a trailing unterminated block — a begin-marker line `b` and then
marker-free lines `post` — the block contributes nothing to the records
and nothing to the header, but all of its lines end up in the footer. -/
theorem claim2_unterminated (ics : List Char)
    (pre : List (List Char)) (b : List Char) (post : List (List Char))
    (hsplit : splitNL ics = pre ++ b :: post)
    (hb : isBegin b = true)
    (hpost : ∀ l ∈ post, noMarker l = true) :
    parse_ics_events ics = parseAux pre [] false ∧
    headerLines (splitNL ics) = headerLines pre ∧
    footerLines (splitNL ics) = footerLines pre ++ b :: post := by
  refine ⟨?_, ?_, ?_⟩
  · unfold parse_ics_events
    rw [hsplit]
    exact parseAux_unterminated pre b post [] false hb hpost
  · rw [hsplit]
    unfold headerLines
    exact takeWhile_append_stop _ pre b post (by simp [hb])
  · rw [hsplit]
    unfold footerLines
    have h1 : (pre ++ b :: post).reverse = post.reverse ++ b :: pre.reverse := by
      simp
    rw [h1,
      footerAux_false_no_end _ _
        (fun l hl => (noMarker_split (hpost l (List.mem_reverse.mp hl))).2),
      footerAux_cons_keep (isBegin_not_isEnd hb)]
    simp

/-- C2 witness at the concrete document `A` + unterminated block. -/
theorem claim2_witness :
    parse_ics_events ("A\nBEGIN:VEVENT\nX".data) = parseAux [['A']] [] false ∧
    headerLines (splitNL ("A\nBEGIN:VEVENT\nX".data)) = headerLines [['A']] ∧
    footerLines (splitNL ("A\nBEGIN:VEVENT\nX".data))
      = footerLines [['A']] ++ "BEGIN:VEVENT".data :: [['X']] :=
  claim2_unterminated ("A\nBEGIN:VEVENT\nX".data) [['A']] ("BEGIN:VEVENT".data) [['X']]
    (by decide) (by decide) (by decide)

/-- C3 counterexample: for the input `A` — no records — the reassembled
document is `A\nA`, whose header re-splits to `A\nA`; even after strip it
differs from the original header `A`, so the round trip fails as claimed
for arbitrary inputs. -/
theorem claim3_cex :
    pyStrip (extract_calendar_wrapper (roundTrip ("A".data))).1
      ≠ pyStrip (extract_calendar_wrapper ("A".data)).1 := by decide

/-- C3 (amended): for well-formed documents — header and footer free of
marker lines, at least one record, each record a begin-marker line,
marker-free interior lines and an end-marker line — re-splitting the
reassembled document yields exactly the same record sequence, and a
header and footer equal to the originals up to whitespace strip. -/
theorem claim3_roundtrip (ics : List Char) (H : List (List Char))
    (blocks : List (List (List Char))) (F : List (List Char))
    (hsplit : splitNL ics = H ++ blocks.flatten ++ F)
    (hH : ∀ l ∈ H, noMarker l = true)
    (hF : ∀ l ∈ F, noMarker l = true)
    (hB : ∀ B ∈ blocks, isBlockLines B = true)
    (hne : blocks ≠ []) :
    parse_ics_events (roundTrip ics) = parse_ics_events ics ∧
    pyStrip (extract_calendar_wrapper (roundTrip ics)).1
      = pyStrip (extract_calendar_wrapper ics).1 ∧
    pyStrip (extract_calendar_wrapper (roundTrip ics)).2
      = pyStrip (extract_calendar_wrapper ics).2 :=
  roundTrip_structured ics H blocks F hsplit hH hF hB hne

/-- C3 witness at a concrete one-record document. -/
theorem claim3_witness :
    parse_ics_events (roundTrip ("H1\nBEGIN:VEVENT\nD\nEND:VEVENT\nF1".data))
      = parse_ics_events ("H1\nBEGIN:VEVENT\nD\nEND:VEVENT\nF1".data) :=
  (claim3_roundtrip ("H1\nBEGIN:VEVENT\nD\nEND:VEVENT\nF1".data)
    [['H', '1']] [["BEGIN:VEVENT".data, ['D'], "END:VEVENT".data]] [['F', '1']]
    (by decide) (by decide) (by decide) (by decide) (by decide)).1

/-- C4: whenever the filter returns a result (no extraction error
propagated), that result is an order-preserving subsequence of the input
and a record belongs to it iff its extracted date lies in the inclusive
window. -/
theorem claim4_filter_window (evs : List (List Char)) (s e : PyDate)
    (out : List (List Char)) (h : filter_events_by_date evs s e = .ok out) :
    List.Sublist out evs ∧
    (∀ r : List Char, r ∈ out ↔ (r ∈ evs ∧
      ∃ d, extract_event_date r = .ok d ∧ dateLe s d = true ∧ dateLe d e = true)) :=
  ⟨filter_ok_sublist evs s e out h, mem_filter_ok evs s e out h⟩

/-- C4 witness: concrete two-event list, window keeping only the first. -/
theorem claim4_witness :
    List.Sublist ["BEGIN:VEVENT\nDTSTART:20240601\nEND:VEVENT".data]
      ["BEGIN:VEVENT\nDTSTART:20240601\nEND:VEVENT".data,
       "BEGIN:VEVENT\nDTSTART:20251231\nEND:VEVENT".data] :=
  (claim4_filter_window
    ["BEGIN:VEVENT\nDTSTART:20240601\nEND:VEVENT".data,
     "BEGIN:VEVENT\nDTSTART:20251231\nEND:VEVENT".data]
    ⟨2024, 1, 1⟩ ⟨2024, 12, 31⟩
    ["BEGIN:VEVENT\nDTSTART:20240601\nEND:VEVENT".data] (by decide)).1

/-- C5 counterexample: the input `A` contains no begin-marker line, yet
the footer is the entire text `A`, not the empty string. -/
theorem claim5_cex :
    splitNL ("A".data) = [['A']] ∧ isBegin ['A'] = false ∧
    (extract_calendar_wrapper ("A".data)).2 = "A".data := by decide

/-- C5 (amended): for an input with neither begin- nor end-marker lines,
the records are empty and both the header and the footer are the entire
text (the footer is empty only when an end-marker is present). -/
theorem claim5_no_marker_input (ics : List Char)
    (h : ∀ l ∈ splitNL ics, noMarker l = true) :
    parse_ics_events ics = [] ∧
    (extract_calendar_wrapper ics).1 = ics ∧
    (extract_calendar_wrapper ics).2 = ics := by
  refine ⟨?_, ?_, ?_⟩
  · exact parseAux_nil_of_no_marker _ [] false h
  · show joinNL (headerLines (splitNL ics)) = ics
    unfold headerLines
    rw [List.takeWhile_eq_self_iff.mpr (fun x hx => by simp [(noMarker_split (h x hx)).1])]
    exact joinNL_splitNL ics
  · show joinNL (footerLines (splitNL ics)) = ics
    unfold footerLines
    rw [footerAux_false_all _
        (fun l hl => (noMarker_split (h l (List.mem_reverse.mp hl))).2),
      List.reverse_reverse]
    exact joinNL_splitNL ics

/-- C5 witness at the concrete marker-free document `hello\nworld`. -/
theorem claim5_witness :
    (extract_calendar_wrapper ("hello\nworld".data)).1 = "hello\nworld".data :=
  (claim5_no_marker_input ("hello\nworld".data) (by decide)).2.1

/-- C6 counterexample: for the input consisting of the single line
`END:VEVENT`, the header is that very end-marker line, so the header can
contain a marker line. -/
theorem claim6_cex :
    (extract_calendar_wrapper ("END:VEVENT".data)).1 = "END:VEVENT".data ∧
    isEnd ("END:VEVENT".data) = true := by decide

/-- C6 (amended): for every input, the header contains no begin-marker
line and the footer contains no end-marker line (but the header may
contain end markers and the footer begin markers). -/
theorem claim6_envelope (ics : List Char) :
    (∀ l ∈ splitNL (extract_calendar_wrapper ics).1, isBegin l = false) ∧
    (∀ l ∈ splitNL (extract_calendar_wrapper ics).2, isEnd l = false) := by
  have hNL := mem_splitNL_no_NL ics
  constructor
  · intro l hl
    rcases hq : headerLines (splitNL ics) with _ | ⟨x, xs⟩
    · have h0 : (extract_calendar_wrapper ics).1 = [] := by
        show joinNL (headerLines (splitNL ics)) = []
        rw [hq]
        rfl
      rw [h0] at hl
      have h1 : l = [] := by simpa [splitNL] using hl
      subst h1
      decide
    · have hsub : ∀ y ∈ headerLines (splitNL ics), ∀ c ∈ y, c ≠ NL := fun y hy =>
        hNL y ((List.takeWhile_sublist _).subset hy)
      have h0 : (extract_calendar_wrapper ics).1 = joinNL (x :: xs) := by
        show joinNL (headerLines (splitNL ics)) = _
        rw [hq]
      rw [h0, splitNL_joinNL _ (by simp),
        bind_splitNL_self _ (fun y hy => hsub y (by rw [hq]; exact hy))] at hl
      exact headerLines_no_begin (splitNL ics) l (by rw [hq]; exact hl)
  · intro l hl
    rcases hq : footerLines (splitNL ics) with _ | ⟨x, xs⟩
    · have h0 : (extract_calendar_wrapper ics).2 = [] := by
        show joinNL (footerLines (splitNL ics)) = []
        rw [hq]
        rfl
      rw [h0] at hl
      have h1 : l = [] := by simpa [splitNL] using hl
      subst h1
      decide
    · have hsub : ∀ y ∈ footerLines (splitNL ics), ∀ c ∈ y, c ≠ NL := by
        intro y hy
        have h2 := mem_footerAux false (splitNL ics).reverse y (List.mem_reverse.mp hy)
        exact hNL y (List.mem_reverse.mp h2.1)
      have h0 : (extract_calendar_wrapper ics).2 = joinNL (x :: xs) := by
        show joinNL (footerLines (splitNL ics)) = _
        rw [hq]
      rw [h0, splitNL_joinNL _ (by simp),
        bind_splitNL_self _ (fun y hy => hsub y (by rw [hq]; exact hy))] at hl
      have h5 : l ∈ footerLines (splitNL ics) := by rw [hq]; exact hl
      exact (mem_footerAux false _ l (List.mem_reverse.mp h5)).2

/-- C6 witness: the header line `x` of a concrete document is no begin
marker. -/
theorem claim6_witness : isBegin ['x'] = false :=
  (claim6_envelope ("x\nBEGIN:VEVENT\nEND:VEVENT".data)).1 ['x'] (by decide)

/-- C7 counterexample: the single stray line `END:VEVENT` yields the
record `END:VEVENT`, whose first (and only) line is not a begin marker. -/
theorem claim7_cex :
    parse_ics_events ("END:VEVENT".data) = ["END:VEVENT".data] ∧
    isBegin ("END:VEVENT".data) = false := by decide

/-- C7 (amended): for every input in which each end-marker line occurs
while a record is open (no stray end markers), every record returned by
the splitter is a block: a begin-marker first line, the matching
end-marker last line, and no marker lines in between. -/
theorem claim7_records_shape (ics : List Char)
    (h : noStray (splitNL ics) false = true) :
    ∀ R ∈ parse_ics_events ics, isGoodRecord R = true := by
  intro R hR
  exact parseAux_good (splitNL ics) [] false h (mem_splitNL_no_NL ics)
    (fun l hl => absurd hl (List.not_mem_nil l))
    (fun hc => by cases hc) (fun _ => rfl) R hR

/-- C7 witness at a concrete well-formed record. -/
theorem claim7_witness :
    isGoodRecord ("BEGIN:VEVENT\nX\nEND:VEVENT".data) = true :=
  claim7_records_shape ("BEGIN:VEVENT\nX\nEND:VEVENT".data) (by decide)
    ("BEGIN:VEVENT\nX\nEND:VEVENT".data) (by decide)

/-- C8 counterexample: no single line of `DTSTART;x\ny:20240101` matches
the date pattern, yet the whole-text search matches across the newline
(the parameter part `[^:]*` spans it), so the extracted date is
2024-01-01 rather than the sentinel minimum, and the record survives a
window whose start 2024-01-01 exceeds the minimum date. -/
theorem claim8_cex :
    splitNL ("DTSTART;x\ny:20240101".data) = ["DTSTART;x".data, "y:20240101".data] ∧
    reSearch ("DTSTART;x".data) = none ∧
    reSearch ("y:20240101".data) = none ∧
    extract_event_date ("DTSTART;x\ny:20240101".data) = .ok ⟨2024, 1, 1⟩ ∧
    dateLe ⟨2024, 1, 1⟩ datetimeMin = false ∧
    filter_events_by_date ["DTSTART;x\ny:20240101".data] ⟨2024, 1, 1⟩ ⟨2025, 1, 1⟩
      = .ok ["DTSTART;x\ny:20240101".data] := by decide

/-- C8 (amended): for a record whose whole text has no match of the date
pattern, extraction returns the sentinel minimum, and whenever the filter
succeeds with a window start strictly above the minimum date the record
is excluded. -/
theorem claim8_no_match (r : List Char) (evs : List (List Char)) (s e : PyDate)
    (out : List (List Char))
    (h1 : reSearch r = none)
    (h2 : filter_events_by_date evs s e = .ok out)
    (h3 : dateLe s datetimeMin = false) :
    extract_event_date r = .ok datetimeMin ∧ r ∉ out := by
  have hx : extract_event_date r = .ok datetimeMin := by
    unfold extract_event_date
    rw [h1]
  refine ⟨hx, ?_⟩
  intro hr
  obtain ⟨_, d, hd, hw1, _⟩ := (mem_filter_ok evs s e out h2 r).mp hr
  rw [hx] at hd
  have hdd : datetimeMin = d := by simpa using hd
  subst hdd
  rw [hw1] at h3
  cases h3

/-- C8 witness at the concrete record `no date`. -/
theorem claim8_witness :
    extract_event_date ("no date".data) = .ok datetimeMin ∧
    ("no date".data) ∉ ([] : List (List Char)) :=
  claim8_no_match ("no date".data) [("no date".data)] ⟨2024, 1, 1⟩ ⟨2025, 1, 1⟩ []
    (by decide) (by decide) (by decide)

/-- C9 counterexample: with end < start but a record whose date digits
are impossible, the filter raises (the `strptime` error propagates)
instead of returning the empty list. -/
theorem claim9_cex :
    dateLe ⟨2024, 6, 1⟩ ⟨2024, 1, 1⟩ = false ∧
    filter_events_by_date ["DTSTART:20240230".data] ⟨2024, 6, 1⟩ ⟨2024, 1, 1⟩
      = .error () := by decide

/-- C9 (amended): when the end date precedes the start date the filter
returns the empty list, provided date extraction succeeds on every
record (otherwise the propagated extraction error is the outcome). -/
theorem claim9_empty (evs : List (List Char)) (s e : PyDate)
    (out : List (List Char))
    (h1 : dateLe s e = false)
    (h2 : filter_events_by_date evs s e = .ok out) :
    out = [] := by
  rcases out with _ | ⟨r, t⟩
  · rfl
  · exfalso
    obtain ⟨_, d, _, hw1, hw2⟩ := (mem_filter_ok evs s e _ h2 r).mp (List.mem_cons_self r t)
    rw [dateLe_trans hw1 hw2] at h1
    cases h1

/-- C9 witness with a concrete inverted window. -/
theorem claim9_witness :
    dateLe ⟨2024, 6, 1⟩ ⟨2024, 1, 1⟩ = false ∧ ([] : List (List Char)) = [] :=
  ⟨by decide,
    claim9_empty ["DTSTART:20240101".data] ⟨2024, 6, 1⟩ ⟨2024, 1, 1⟩ []
      (by decide) (by decide)⟩

/-- C10: the filter is idempotent — filtering its own output again with
the same window returns exactly that output. -/
theorem claim10_idempotent (evs : List (List Char)) (s e : PyDate)
    (out : List (List Char)) (h : filter_events_by_date evs s e = .ok out) :
    filter_events_by_date out s e = .ok out :=
  filter_idem_aux evs s e out h

/-- C10 witness at a concrete two-event list. -/
theorem claim10_witness :
    filter_events_by_date ["BEGIN:VEVENT\nDTSTART:20240601\nEND:VEVENT".data]
      ⟨2024, 1, 1⟩ ⟨2024, 12, 31⟩
      = .ok ["BEGIN:VEVENT\nDTSTART:20240601\nEND:VEVENT".data] :=
  claim10_idempotent
    ["BEGIN:VEVENT\nDTSTART:20240601\nEND:VEVENT".data,
     "BEGIN:VEVENT\nDTSTART:20251231\nEND:VEVENT".data]
    ⟨2024, 1, 1⟩ ⟨2024, 12, 31⟩
    ["BEGIN:VEVENT\nDTSTART:20240601\nEND:VEVENT".data] (by decide)

end CalProc
